import Mathlib

/-!
# StockTrade-Backtest-System — verification of the performance-analytics and engine spec

Shallow embedding of the repository's result-analytics frontend
(`src/unnamed/part_001`, `part_005`, `part_006`, `part_009`, `src/frontend/app.js`)
and of the backtest engine described by the specification (the engine's Python
sources `backtest/portfolio.py`, `backtest/execution.py`, `backtest/engine.py`
are not shipped under `src/`; those parts are modelled from the spec, see the
doc comments of the corresponding definitions).

Numeric values the JavaScript source holds as IEEE-754 doubles are modelled as
exact rationals (`ℚ`); the presentational rounding steps (`toFixed` coercions
such as `+dd.toFixed(2)`) are abstracted to exact arithmetic.  Dates, stock
codes and selector identifiers are modelled as natural numbers.
-/

set_option maxRecDepth 10000

/-- An equity-curve point as consumed by the charts: the engine emits one
`{date, cash, value of open positions, total_value, num_positions}` record per
simulated day; the analytics only read `date`, `total_value`, `num_positions`. -/
structure EquityPoint where
  date : ℕ
  total_value : ℚ
  num_positions : ℕ
deriving DecidableEq

instance : Inhabited EquityPoint := ⟨⟨0, 0, 0⟩⟩

/-- A trade-log record as consumed by the KPI cards and event charts
(`net_pnl` = net profit and loss after costs, `buy_strategy` = originating
selector tag). -/
structure TradeRec where
  net_pnl : ℚ
  buy_strategy : ℕ
deriving DecidableEq

instance : Inhabited TradeRec := ⟨⟨0, 0⟩⟩

/-- `ReturnsCharts.drawdownData` inner loop (src/unnamed/part_005 lines 258-270):
`peak` is threaded through the equity values; each point yields
`peak > 0 ? ((val - peak) / peak) * 100 : 0`. -/
def drawdownAux (peak : ℚ) : List ℚ → List ℚ
  | [] => []
  | v :: rest =>
    let peak' := if v > peak then v else peak
    (if peak' > 0 then ((v - peak') / peak') * 100 else 0) :: drawdownAux peak' rest

/-- `ReturnsCharts.drawdownData` (src/unnamed/part_005 lines 258-270): the peak
is initialised with the first point's `total_value` and the whole curve
(first point included) is mapped.  `src/frontend/app.js` lines 370-375 is the
same computation with the peak initialised to `-Infinity`, which coincides with
this one from the first iteration on. -/
def drawdownData (ec : List EquityPoint) : List ℚ :=
  match ec with
  | [] => []
  | e0 :: _ => drawdownAux e0.total_value (ec.map EquityPoint.total_value)

/-- One element of `ReturnsCharts.cumulativeData`: `{date, nav, benchmark}`. -/
structure CumPoint where
  date : ℕ
  nav : ℚ
  benchmark : Option ℚ
deriving DecidableEq

instance : Inhabited CumPoint := ⟨⟨0, 0, none⟩⟩

/-- `ReturnsCharts.cumulativeData` (src/unnamed/part_005 lines 241-255):
`initialValue` is the first point's `total_value`; every point is mapped to
`{date, nav := total_value / initialValue, benchmark := benchmarkMap.get date ?? null}`. -/
def cumulativeData (ec : List EquityPoint) (benchmarkMap : ℕ → Option ℚ) : List CumPoint :=
  match ec with
  | [] => []
  | e0 :: _ =>
    ec.map (fun p => ⟨p.date, p.total_value / e0.total_value, benchmarkMap p.date⟩)

/-- A `{x, y}` point of the legacy dashboard's canvas series (src/frontend/app.js). -/
structure ChartPoint where
  x : ℕ
  y : ℚ
deriving DecidableEq

instance : Inhabited ChartPoint := ⟨⟨0, 0⟩⟩

/-- JavaScript `a || d` on an optional number: `0` (falsy) falls through to the
default, as does an absent value. -/
def jsNumOr (a : Option ℚ) (d : ℚ) : ℚ :=
  match a with
  | some x => if x = 0 then d else x
  | none => d

/-- The divisor of the legacy dashboard's cumulative-return series
(src/frontend/app.js line 363):
`result.analysis?.summary?.initial_capital || result.analysis?.returns?.final_value || 1`. -/
def appInitial (initialCapital finalValue : Option ℚ) : ℚ :=
  jsNumOr initialCapital (jsNumOr finalValue 1)

/-- `cumReturnSeries` of `renderCharts` (src/frontend/app.js lines 364-367):
`y = ((row.total_value / initial) - 1) * 100`. -/
def cumReturnSeries (ec : List EquityPoint) (initial : ℚ) : List ChartPoint :=
  ec.map (fun r => ⟨r.date, (r.total_value / initial - 1) * 100⟩)

/-- Winning-trade count of `KpiCards` (src/unnamed/part_009 lines 217-219):
trades whose `net_pnl` is strictly greater than `0`. -/
def winningTrades (trades : List TradeRec) : ℕ :=
  (trades.filter (fun t => 0 < t.net_pnl)).length

/-- `KpiCards` win rate (src/unnamed/part_009 line 220):
`totalTrades > 0 ? (winningTrades / totalTrades) * 100 : 0`. -/
def winRatePct (trades : List TradeRec) : ℚ :=
  if 0 < trades.length then ((winningTrades trades : ℚ) / trades.length) * 100 else 0

/-- The input domain of `formatPercent` (src/unnamed/part_001 line 1):
`number | null | undefined`, where a number may be `NaN`.  Finite doubles are
modelled as rationals. -/
inductive JSNum where
  | null : JSNum
  | undefined : JSNum
  | nan : JSNum
  | num : ℚ → JSNum
deriving DecidableEq

/-- Zero-padding of the fractional digit block of `toFixed`. -/
def padZeros (s : List Char) (d : ℕ) : List Char :=
  List.replicate (d - s.length) '0' ++ s

/-- `Number.prototype.toFixed` on a non-negative rational: the integer `n`
closest to `q * 10^d` (ties towards the larger `n`, per ECMA-262), rendered
with `d` fractional digits. -/
def toFixedNN (q : ℚ) (d : ℕ) : String :=
  let n : ℕ := (⌊q * 10 ^ d + 1 / 2⌋).toNat
  if d = 0 then Nat.repr n
  else
    String.mk ((Nat.repr (n / 10 ^ d)).data ++ '.' :: padZeros (Nat.repr (n % 10 ^ d)).data d)

/-- `Number.prototype.toFixed` on a rational: a leading minus sign is emitted
for negative inputs (ECMA-262 step 6 of `toFixed`). -/
def toFixedQ (q : ℚ) (d : ℕ) : String :=
  if q < 0 then String.mk ('-' :: (toFixedNN (-q) d).data) else toFixedNN q d

/-- `formatPercent` (src/unnamed/part_001 lines 1-4):
`value == null || isNaN(value)` yields the sentinel `"--"`; otherwise
`(value >= 0 ? "+" : "") + value.toFixed(decimals) + "%"`. -/
def formatPercent (v : JSNum) (decimals : ℕ) : String :=
  match v with
  | .null => "--"
  | .undefined => "--"
  | .nan => "--"
  | .num q => String.mk ((if 0 ≤ q then "+" else "").data ++ (toFixedQ q decimals).data ++ "%".data)

/-- Daily return series shared by `RiskCharts.volatilityData` and
`RiskCharts.sharpeData` (src/unnamed/part_005 lines 86-91): for consecutive
equity values `prev, curr` push `prev !== 0 ? (curr - prev) / Math.abs(prev) : 0`. -/
def dailyReturns : List ℚ → List ℚ
  | [] => []
  | [_] => []
  | a :: b :: rest => (if a ≠ 0 then (b - a) / |a| else 0) :: dailyReturns (b :: rest)

/-- The daily risk-free rate used by `RiskCharts.sharpeData`
(src/unnamed/part_005 line 94): `0.03 / 252`. -/
def dailyRf : ℚ := 3 / 100 / 252

/-- Mean of a 60-return window (src/unnamed/part_005 line 98): the source
divides by the constant `window = 60`. -/
def winMean (slice : List ℚ) : ℚ := slice.sum / 60

/-- Sample variance of a 60-return window (src/unnamed/part_005 lines 99-100):
sum of squared deviations divided by `window - 1 = 59`. -/
def winVar (slice : List ℚ) : ℚ :=
  (slice.map (fun b => (b - winMean slice) ^ 2)).sum / 59

/-- The rolling windows of `RiskCharts.sharpeData` (src/unnamed/part_005
line 96-97): for `i` from `60` to `returns.length - 1` the slice
`returns.slice(i - 60, i)`, re-indexed by `k = i - 60`. -/
def sharpeSlices (returns : List ℚ) : List (List ℚ) :=
  (List.range (returns.length - 60)).map (fun k => (returns.drop k).take 60)

/-- One rolling-Sharpe value (src/unnamed/part_005 lines 101-102):
`std = Math.sqrt(variance)`; `std > 0 ? ((mean - dailyRf) / std) * Math.sqrt(252) : 0`. -/
noncomputable def sharpeOf (mean variance : ℚ) : ℝ :=
  let std := Real.sqrt (variance : ℝ)
  if std > 0 then (((mean : ℝ) - (dailyRf : ℝ)) / std) * Real.sqrt 252 else 0

/-- `RiskCharts.sharpeData` (src/unnamed/part_005 lines 84-109): empty when the
equity curve has fewer than 62 points, otherwise one Sharpe value per window. -/
noncomputable def sharpeData (ec : List EquityPoint) : List ℝ :=
  if ec.length < 62 then []
  else
    (sharpeSlices (dailyReturns (ec.map EquityPoint.total_value))).map
      (fun s => sharpeOf (winMean s) (winVar s))

/-- Modelled from the spec's wording of the claim, for comparison with the
source: "(mean daily return of the 60-return window minus the daily risk-free
rate 0.03/252) divided by the sample standard deviation (n-1 denominator) of
that window's daily returns, multiplied by sqrt 252; a window whose standard
deviation is zero yields the value 0". -/
noncomputable def specRollingSharpe (s : List ℚ) : ℝ :=
  let n := s.length
  let mean : ℚ := s.sum / n
  let sd : ℝ := Real.sqrt (((s.map (fun x => (x - mean) ^ 2)).sum / ((n : ℚ) - 1) : ℚ) : ℝ)
  if sd = 0 then 0 else (((mean : ℝ) - ((3 : ℝ) / 100 / 252)) / sd) * Real.sqrt 252

/-- The benchmark-dependent inputs of the results page: whether a benchmark is
selected (`benchmark !== "none"`), the fetched benchmark NAV series keyed by
date (`useBenchmark(...).data.series`), and `analysis.benchmark` (`none` when
the analyzer produced no benchmark block, `some none` when the block exists but
has no `excess_return_pct` field). -/
structure BenchmarkInput where
  selected : Bool
  series : ℕ → Option ℚ
  analysisBench : Option (Option ℚ)

/-- The `metrics` record read by `KpiCards` (src/unnamed/part_009 lines 221-224);
each field may be absent (`?? 0` in the source). -/
structure Metrics where
  total_return_pct : Option ℚ
  max_drawdown_pct : Option ℚ
  final_value : Option ℚ
  sharpe_ratio : Option ℚ

/-- Everything the results page computes from a backtest result: the
strategy-NAV and benchmark series of `ReturnsCharts.cumulativeData`, the
drawdown series of `ReturnsCharts.drawdownData`, and the KPI-card values of
`KpiCards` (src/unnamed/part_009 lines 215-283).  `excessDisplay = none`
renders as the `"--"` card. -/
structure ResultsView where
  navSeries : List ℚ
  benchSeries : List (Option ℚ)
  drawdownSeries : List ℚ
  totalTrades : ℕ
  winRate : ℚ
  totalReturnPct : ℚ
  maxDrawdownPct : ℚ
  finalValue : ℚ
  sharpeRatio : ℚ
  excessDisplay : Option ℚ

/-- `KpiCards` excess-return value (src/unnamed/part_009 lines 227-233):
`benchmark !== "none" && benchmarkData ? (benchmarkData.excess_return_pct ?? 0) : 0`. -/
def excessReturnPct (b : BenchmarkInput) : ℚ :=
  if b.selected then
    match b.analysisBench with
    | some e => e.getD 0
    | none => 0
  else 0

/-- The results page assembled from the source components: `ReturnsCharts`
passes `useBenchmark(benchmark !== "none" ? benchmark : null, ...)` so the
benchmark map is empty when no benchmark is selected; `KpiCards` shows the
excess-return card as `"--"` when `benchmark === "none"`. -/
def renderView (ec : List EquityPoint) (m : Metrics) (trades : List TradeRec)
    (b : BenchmarkInput) : ResultsView :=
  let benchMap : ℕ → Option ℚ := fun d => if b.selected then b.series d else none
  { navSeries := (cumulativeData ec benchMap).map CumPoint.nav
    benchSeries := (cumulativeData ec benchMap).map CumPoint.benchmark
    drawdownSeries := drawdownData ec
    totalTrades := trades.length
    winRate := winRatePct trades
    totalReturnPct := m.total_return_pct.getD 0
    maxDrawdownPct := m.max_drawdown_pct.getD 0
    finalValue := m.final_value.getD 0
    sharpeRatio := m.sharpe_ratio.getD 0
    excessDisplay := if b.selected then some (excessReturnPct b) else none }

/-- Modelled from the spec: one day's OHLCV bar of the price-history provider
(§6); only the fields the engine model reads are kept. -/
structure Bar where
  openPx : ℚ
  closePx : ℚ
  volume : ℚ

/-- Modelled from the spec: a price history assigns a bar to every
(stock code, date) pair. -/
def PriceHist : Type := ℕ → ℕ → Bar

/-- Modelled from the spec: the run parameters the ledger and execution model
read (§6); the minimum viable order value is the 10000 of the
`can_open_new_position` excerpt quoted in src/CASH_MANAGEMENT_FIX.md. -/
structure EngineCfg where
  maxPositions : ℕ
  lotSize : ℕ
  commissionRate : ℚ
  priceLimitPct : ℚ
  maxAttempts : ℕ

/-- Modelled from the spec: a pending buy order of `backtest/portfolio.py`
(not under src/): stock code, sized share count, frozen (reserved) cash,
creation date, and the suspension re-attempt counter of §4.3. -/
structure PendingOrder where
  code : ℕ
  shares : ℕ
  reserved : ℚ
  created : ℕ
  attempts : ℕ
deriving DecidableEq

/-- Terminal status of an order (§3: status transitions once, to filled or
rejected). -/
inductive OutcomeKind where
  | filled : OutcomeKind
  | rejected : OutcomeKind
deriving DecidableEq

/-- An entry of the settlement log: which order (code, creation date) reached
which terminal status on which date, and the execution price used for a fill. -/
structure Outcome where
  code : ℕ
  created : ℕ
  day : ℕ
  kind : OutcomeKind
  execPrice : ℚ
deriving DecidableEq

/-- Modelled from the spec: the Order and Cash Ledger state of §4.2 —
cash, the open-position count, and the queue of pending buy orders. -/
structure Ledger where
  cash : ℚ
  openPositions : ℕ
  pendingBuys : List PendingOrder
deriving DecidableEq

/-- Total reserved cash of a list of pending orders. -/
def frozenOf (l : List PendingOrder) : ℚ := (l.map PendingOrder.reserved).sum

/-- Modelled from the spec (§3 invariant 1): cash reserved for pending buys. -/
def frozenCash (L : Ledger) : ℚ := frozenOf L.pendingBuys

/-- Modelled from the spec (§4.2): `available_cash` = cash minus cash reserved
for pending buys. -/
def availableCash (L : Ledger) : ℚ := L.cash - frozenCash L

/-- Modelled from the spec: the Execution Model of §4.3, settling yesterday's
queued orders against day `d`.  Each order in turn is
* deferred (kept pending, re-attempt counter bumped) when the day's volume is
  zero (suspension), until the bounded attempt budget is exhausted, then
  dropped as a rejection;
* rejected when the opening price moves beyond `priceLimitPct` of the prior
  close (price-limit lockout), with no cash movement;
* otherwise re-validated against the cash not reserved for the other still
  pending orders (§9's resolution of the deferral ambiguity: retain original
  sizing, re-validate affordability at execution time) and either filled —
  cash debited by notional plus commission, its reservation released, a
  position opened — or rejected as no longer affordable.
Arguments: running cash, open positions, orders already deferred today, the
log accumulator, and the orders still to settle. -/
def settleOrders (cfg : EngineCfg) (hist : PriceHist) (d : ℕ) :
    ℚ → ℕ → List PendingOrder → List Outcome → List PendingOrder →
    ℚ × ℕ × List PendingOrder × List Outcome
  | cash, pos, kept, log, [] => (cash, pos, kept, log)
  | cash, pos, kept, log, o :: rest =>
    if (hist o.code d).volume = 0 then
      if o.attempts + 1 < cfg.maxAttempts then
        settleOrders cfg hist d cash pos
          (kept ++ [{ o with attempts := o.attempts + 1 }]) log rest
      else
        settleOrders cfg hist d cash pos kept
          (log ++ [⟨o.code, o.created, d, .rejected, 0⟩]) rest
    else
      if |(hist o.code d).openPx - (hist o.code (d - 1)).closePx| >
          cfg.priceLimitPct * (hist o.code (d - 1)).closePx then
        settleOrders cfg hist d cash pos kept
          (log ++ [⟨o.code, o.created, d, .rejected, 0⟩]) rest
      else
        if (o.shares : ℚ) * (hist o.code d).openPx * (1 + cfg.commissionRate) ≤
            cash - (frozenOf kept + frozenOf rest) then
          settleOrders cfg hist d
            (cash - (o.shares : ℚ) * (hist o.code d).openPx * (1 + cfg.commissionRate))
            (pos + 1) kept
            (log ++ [⟨o.code, o.created, d, .filled, (hist o.code d).openPx⟩]) rest
        else
          settleOrders cfg hist d cash pos kept
            (log ++ [⟨o.code, o.created, d, .rejected, 0⟩]) rest

/-- Modelled from the spec: the ledger and the day's outcome log after the
settlement phase of day `d`. -/
def settlePhase (cfg : EngineCfg) (hist : PriceHist) (d : ℕ) (L : Ledger) :
    Ledger × List Outcome :=
  let r := settleOrders cfg hist d L.cash L.openPositions [] [] L.pendingBuys
  (⟨r.1, r.2.1, r.2.2.1⟩, r.2.2.2)

/-- Modelled from the spec (§4.2): lot rounding — `floor(target_value / price)`
rounded down to the nearest lot. -/
def sizeShares (cfg : EngineCfg) (targetValue price : ℚ) : ℕ :=
  (⌊targetValue / price⌋.toNat / cfg.lotSize) * cfg.lotSize

/-- Modelled from the spec (§4.2) and the `calculate_position_size` excerpt in
src/CASH_MANAGEMENT_FIX.md: a candidate is accepted only when
`open_positions + pending_buy_orders < max_positions` and `available_cash`
covers the minimum viable order value (10000); the equal-weight target is
`available_cash / remaining_slots` where the slot count then available to the
candidate is `max_positions - (open_positions + pending_buy_orders)` (the
excerpt's `+1` re-adds the slot of the order being sized, which it already
counts among the pending orders); the sized shares reserve
`shares * price` of cash, and a candidate whose shares round to zero creates
no order.  The sizing price is the signal day's close. -/
def processSignal (cfg : EngineCfg) (hist : PriceHist) (d : ℕ)
    (L : Ledger) (code : ℕ) : Ledger :=
  if L.openPositions + L.pendingBuys.length < cfg.maxPositions ∧ 10000 ≤ availableCash L then
    if sizeShares cfg (availableCash L /
        ((cfg.maxPositions - (L.openPositions + L.pendingBuys.length) : ℕ) : ℚ))
        (hist code d).closePx = 0 then L
    else
      { L with pendingBuys := L.pendingBuys ++
          [⟨code,
            sizeShares cfg (availableCash L /
              ((cfg.maxPositions - (L.openPositions + L.pendingBuys.length) : ℕ) : ℚ))
              (hist code d).closePx,
            (sizeShares cfg (availableCash L /
              ((cfg.maxPositions - (L.openPositions + L.pendingBuys.length) : ℕ) : ℚ))
              (hist code d).closePx : ℚ) * (hist code d).closePx,
            d, 0⟩] }
  else L

/-- Modelled from the spec (§2, §4.2): the day's candidates are sized in their
deterministic processing order. -/
def processSignals (cfg : EngineCfg) (hist : PriceHist) (d : ℕ)
    (L : Ledger) (codes : List ℕ) : Ledger :=
  codes.foldl (processSignal cfg hist d) L

/-- Modelled from the spec (§2 control flow): one simulated day — settle
yesterday's queued orders, then size and queue today's buy candidates. -/
def dayStep (cfg : EngineCfg) (hist : PriceHist) (signals : ℕ → List ℕ)
    (st : Ledger × List Outcome) (d : ℕ) : Ledger × List Outcome :=
  let s := settlePhase cfg hist d st.1
  (processSignals cfg hist d s.1 (signals d), st.2 ++ s.2)

/-- Modelled from the spec: the initial ledger holds the initial capital, no
positions and no pending orders. -/
def initLedger (cash0 : ℚ) : Ledger := ⟨cash0, 0, []⟩

/-- Modelled from the spec (§5): the strictly sequential date loop — days
`0, 1, …, n-1` fully resolved in order. -/
def runEngine (cfg : EngineCfg) (hist : PriceHist) (signals : ℕ → List ℕ)
    (cash0 : ℚ) (n : ℕ) : Ledger × List Outcome :=
  (List.range n).foldl (dayStep cfg hist signals) (initLedger cash0, [])

/-- Modelled from the spec (§3 invariant 1): the accounting invariant —
non-negative cash, and frozen cash never exceeding cash (equivalently,
`available_cash ≥ 0`), with every reservation non-negative. -/
def LedgerInv (L : Ledger) : Prop :=
  0 ≤ L.cash ∧ frozenCash L ≤ L.cash ∧ ∀ o ∈ L.pendingBuys, 0 ≤ o.reserved

/-- Modelled from the spec (§4.1): the raw per-selector signal lists of one
day — pairs of a selector identifier and the stock codes it names. -/
def RawSignals : Type := List (ℕ × List ℕ)

/-- The stock codes one selector names today (empty when the selector is not
among the day's signal lists). -/
def picksOf (sigs : RawSignals) (r : ℕ) : List ℕ :=
  (((sigs.find? (fun p => p.1 = r)).map Prod.snd).getD [])

/-- Modelled from the spec (§4.1 OR mode): the de-duplicated union of all
selectors' picks. -/
def aggregateOR (sigs : RawSignals) : List ℕ :=
  (sigs.flatMap Prod.snd).dedup

/-- Modelled from the spec (§4.1 AND mode): the effective required subset —
an empty configured subset means all active selectors. -/
def requiredList (sigs : RawSignals) (required : List ℕ) : List ℕ :=
  if required.isEmpty then sigs.map Prod.fst else required

/-- Modelled from the spec (§4.1 AND mode): the intersection of the picks of
the required selectors (an empty required subset means all active selectors);
a stock qualifies only if every required selector names it on the same date. -/
def aggregateAND (sigs : RawSignals) (required : List ℕ) : List ℕ :=
  match requiredList sigs required with
  | [] => []
  | r :: rs =>
    ((rs.foldl (fun acc r' => acc.filter (fun s => s ∈ picksOf sigs r')) (picksOf sigs r))).dedup

/-! ## Helper lemmas -/

theorem getD_map_of_lt {α β : Type} (f : α → β) (l : List α) (i : ℕ) (d1 : α) (d2 : β)
    (h : i < l.length) : (l.map f).getD i d2 = f (l.getD i d1) := by
  rw [List.getD_eq_getElem _ _ (by simpa using h), List.getD_eq_getElem _ _ h,
    List.getElem_map]

theorem ite_gt_eq_max (v peak : ℚ) : (if v > peak then v else peak) = max peak v := by
  rcases lt_or_le peak v with h | h
  · simp [h, max_eq_right h.le]
  · simp [not_lt.mpr h, max_eq_left h]

theorem foldl_max_bounds (l : List ℚ) :
    ∀ seed : ℚ, seed ≤ l.foldl max seed ∧ ∀ x ∈ l, x ≤ l.foldl max seed := by
  induction l with
  | nil => intro seed; simp
  | cons v rest ih =>
    intro seed
    refine ⟨le_trans (le_max_left seed v) ((ih (max seed v)).1), ?_⟩
    intro x hx
    rcases List.mem_cons.mp hx with rfl | hx
    · exact le_trans (le_max_right seed x) ((ih (max seed x)).1)
    · exact (ih (max seed v)).2 x hx

/-! ## C5 — win rate -/

/-- C5: the reported win rate is `100 × (trades with net P&L strictly > 0) /
(total trades)`, `0` on an empty trade list, and a trade with net P&L exactly
`0` is never counted as a win. -/
theorem winRate_formula (trades : List TradeRec) (t : TradeRec) (ts : List TradeRec) :
    (trades = [] → winRatePct trades = 0) ∧
    (trades ≠ [] →
      winRatePct trades = 100 * (winningTrades trades : ℚ) / trades.length) ∧
    (t.net_pnl = 0 → winningTrades (t :: ts) = winningTrades ts) := by
  refine ⟨?_, ?_, ?_⟩
  · intro h; subst h; simp [winRatePct]
  · intro h
    have hl : 0 < trades.length := List.length_pos.mpr h
    rw [winRatePct, if_pos hl]
    ring
  · intro h
    simp [winningTrades, List.filter_cons, h]

/-- C5 witness: a three-trade list with one winner, one break-even trade and
one loser has win rate `100/3`, and prepending a break-even trade leaves the
winner count unchanged. -/
theorem winRate_formula_witness :
    ([(⟨1, 0⟩ : TradeRec), ⟨0, 0⟩, ⟨-1, 0⟩] ≠ ([] : List TradeRec)) ∧
    winRatePct [(⟨1, 0⟩ : TradeRec), ⟨0, 0⟩, ⟨-1, 0⟩] =
      100 * (winningTrades [(⟨1, 0⟩ : TradeRec), ⟨0, 0⟩, ⟨-1, 0⟩] : ℚ) /
        ([(⟨1, 0⟩ : TradeRec), ⟨0, 0⟩, ⟨-1, 0⟩].length) ∧
    winningTrades ((⟨0, 0⟩ : TradeRec) :: [⟨1, 0⟩]) = winningTrades [(⟨1, 0⟩ : TradeRec)] := by
  refine ⟨by decide, ?_, ?_⟩
  · exact (winRate_formula [⟨1, 0⟩, ⟨0, 0⟩, ⟨-1, 0⟩] ⟨0, 0⟩ [⟨1, 0⟩]).2.1 (by decide)
  · exact (winRate_formula [⟨1, 0⟩, ⟨0, 0⟩, ⟨-1, 0⟩] ⟨0, 0⟩ [⟨1, 0⟩]).2.2 rfl

/-! ## C6 — benchmark non-interference -/

/-- C6: every metric other than the benchmark-relative one is identical across
any two benchmark inputs (including an absent one): the strategy NAV series,
drawdown series, trade count, win rate, total return, max drawdown, final
value and Sharpe do not depend on the benchmark; when no benchmark is selected
only the excess-return card degenerates to the `"--"` display. -/
theorem benchmark_noninterference (ec : List EquityPoint) (m : Metrics)
    (trades : List TradeRec) (b1 b2 : BenchmarkInput) :
    (renderView ec m trades b1).navSeries = (renderView ec m trades b2).navSeries ∧
    (renderView ec m trades b1).drawdownSeries = (renderView ec m trades b2).drawdownSeries ∧
    (renderView ec m trades b1).totalTrades = (renderView ec m trades b2).totalTrades ∧
    (renderView ec m trades b1).winRate = (renderView ec m trades b2).winRate ∧
    (renderView ec m trades b1).totalReturnPct = (renderView ec m trades b2).totalReturnPct ∧
    (renderView ec m trades b1).maxDrawdownPct = (renderView ec m trades b2).maxDrawdownPct ∧
    (renderView ec m trades b1).finalValue = (renderView ec m trades b2).finalValue ∧
    (renderView ec m trades b1).sharpeRatio = (renderView ec m trades b2).sharpeRatio ∧
    (b1.selected = false → (renderView ec m trades b1).excessDisplay = none) := by
  refine ⟨?_, rfl, rfl, rfl, rfl, rfl, rfl, rfl, ?_⟩
  · cases ec with
    | nil => rfl
    | cons e0 rest =>
      simp [renderView, cumulativeData, List.map_map, Function.comp]
  · intro h
    simp [renderView, h]

/-- C6 witness: a concrete run compared between no benchmark and a selected
benchmark with a nonzero excess return. -/
theorem benchmark_noninterference_witness :
    (renderView [⟨0, 100, 0⟩] ⟨some 1, some 2, some 3, some 4⟩ [⟨1, 0⟩]
        ⟨false, fun _ => none, none⟩).navSeries =
      (renderView [⟨0, 100, 0⟩] ⟨some 1, some 2, some 3, some 4⟩ [⟨1, 0⟩]
        ⟨true, fun _ => some 1, some (some 5)⟩).navSeries ∧
    (renderView [⟨0, 100, 0⟩] ⟨some 1, some 2, some 3, some 4⟩ [⟨1, 0⟩]
        ⟨false, fun _ => none, none⟩).excessDisplay = none := by
  refine ⟨?_, ?_⟩
  · exact (benchmark_noninterference [⟨0, 100, 0⟩] ⟨some 1, some 2, some 3, some 4⟩
      [⟨1, 0⟩] ⟨false, fun _ => none, none⟩ ⟨true, fun _ => some 1, some (some 5)⟩).1
  · exact (benchmark_noninterference [⟨0, 100, 0⟩] ⟨some 1, some 2, some 3, some 4⟩
      [⟨1, 0⟩] ⟨false, fun _ => none, none⟩ ⟨true, fun _ => some 1, some (some 5)⟩).2.2.2.2.2.2.2.2 rfl

/-! ## C8 — AND-mode output is a subset of OR-mode output -/

theorem mem_foldl_filter (sigs : RawSignals) (rs : List ℕ) :
    ∀ (init : List ℕ) (x : ℕ),
      x ∈ rs.foldl (fun acc r' => acc.filter (fun s => s ∈ picksOf sigs r')) init →
      x ∈ init := by
  induction rs with
  | nil => intro init x hx; simpa using hx
  | cons r rs ih =>
    intro init x hx
    have := ih (init.filter (fun s => s ∈ picksOf sigs r)) x hx
    exact (List.mem_filter.mp this).1

theorem picksOf_subset_flatMap (sigs : RawSignals) (r x : ℕ)
    (hx : x ∈ picksOf sigs r) : x ∈ sigs.flatMap Prod.snd := by
  unfold picksOf at hx
  cases h : sigs.find? (fun p => p.1 = r) with
  | none => rw [h] at hx; simp at hx
  | some p =>
    rw [h] at hx
    simp at hx
    exact List.mem_flatMap.mpr ⟨p, List.mem_of_find?_eq_some h, hx⟩

/-- C8: for every date's raw per-selector signal lists and every required
subset, the stocks output by the aggregator in AND mode are a subset of the
stocks output in OR mode on the same inputs. -/
theorem aggregateAND_subset_aggregateOR (sigs : RawSignals) (required : List ℕ)
    (x : ℕ) (hx : x ∈ aggregateAND sigs required) : x ∈ aggregateOR sigs := by
  rw [aggregateOR, List.mem_dedup]
  rw [aggregateAND] at hx
  cases h : requiredList sigs required with
  | nil => rw [h] at hx; simp at hx
  | cons r rs =>
    rw [h] at hx
    rw [List.mem_dedup] at hx
    exact picksOf_subset_flatMap sigs r x (mem_foldl_filter sigs rs (picksOf sigs r) x hx)

/-- C8 witness: with selector `1` naming `{7, 8}` and selector `2` naming
`{7}`, AND mode over all active selectors outputs `7`, which OR mode also
outputs. -/
theorem aggregateAND_subset_aggregateOR_witness :
    7 ∈ aggregateAND [(1, [7, 8]), (2, [7])] [] ∧
    7 ∈ aggregateOR [(1, [7, 8]), (2, [7])] :=
  ⟨by decide, aggregateAND_subset_aggregateOR [(1, [7, 8]), (2, [7])] [] 7 (by decide)⟩

/-! ## C2 — drawdown series -/

theorem drawdownAux_getD (vs : List ℚ) :
    ∀ (peak : ℚ) (i : ℕ), i < vs.length →
      (drawdownAux peak vs).getD i 0 =
        (if 0 < (vs.take (i + 1)).foldl max peak then
          ((vs.getD i 0 - (vs.take (i + 1)).foldl max peak) /
              (vs.take (i + 1)).foldl max peak) * 100
        else 0) := by
  induction vs with
  | nil => intro peak i h; simp at h
  | cons v rest ih =>
    intro peak i h
    cases i with
    | zero =>
      simp only [drawdownAux, List.getD_cons_zero, List.take_succ_cons, List.take_zero,
        List.foldl_cons, List.foldl_nil, ite_gt_eq_max]
    | succ i =>
      simp only [drawdownAux, List.getD_cons_succ, List.take_succ_cons, List.foldl_cons,
        ite_gt_eq_max]
      exact ih (max peak v) i (by simpa using h)

/-- The equity values fed to the drawdown computation. -/
def equityValues (ec : List EquityPoint) : List ℚ := ec.map EquityPoint.total_value

/-- The running historical peak at index `i`: the maximum `total_value` over
indices `0..i` (the fold is seeded with the first value, which lies inside the
window, so the seed is redundant). -/
def runningPeak (ec : List EquityPoint) (i : ℕ) : ℚ :=
  ((equityValues ec).take (i + 1)).foldl max ((equityValues ec).headD 0)

/-- C2 (amended): at each index `i` the drawdown series holds
`((v_i - p_i) / p_i) * 100` with `p_i` the running peak over indices `0..i`
whenever `p_i > 0`, and `0` otherwise; consequently, when all equity values
are positive, every drawdown value is `≤ 0` and equals `0` exactly at the
indices where `v_i` attains the running maximum. -/
theorem drawdown_formula (ec : List EquityPoint) (i : ℕ) (hne : ec ≠ [])
    (hi : i < ec.length) :
    (drawdownData ec).getD i 0 =
      (if 0 < runningPeak ec i then
        (((equityValues ec).getD i 0 - runningPeak ec i) / runningPeak ec i) * 100
      else 0) ∧
    ((∀ v ∈ equityValues ec, 0 < v) →
      (drawdownData ec).getD i 0 ≤ 0 ∧
      ((drawdownData ec).getD i 0 = 0 ↔
        (equityValues ec).getD i 0 = runningPeak ec i)) := by
  cases ec with
  | nil => exact absurd rfl hne
  | cons e0 rest =>
    have hlen : i < (equityValues (e0 :: rest)).length := by
      simpa [equityValues] using hi
    have hmain : (drawdownData (e0 :: rest)).getD i 0 =
        (if 0 < runningPeak (e0 :: rest) i then
          (((equityValues (e0 :: rest)).getD i 0 - runningPeak (e0 :: rest) i) /
              runningPeak (e0 :: rest) i) * 100
        else 0) := by
      have := drawdownAux_getD (equityValues (e0 :: rest)) e0.total_value i hlen
      simpa [drawdownData, runningPeak, equityValues] using this
    refine ⟨hmain, ?_⟩
    intro hpos
    have hseedmem : e0.total_value ∈ equityValues (e0 :: rest) := by
      simp [equityValues]
    have hseed : (0 : ℚ) < e0.total_value := hpos _ hseedmem
    have hbounds := foldl_max_bounds ((equityValues (e0 :: rest)).take (i + 1))
      ((equityValues (e0 :: rest)).headD 0)
    have hheadD : (equityValues (e0 :: rest)).headD 0 = e0.total_value := by
      simp [equityValues]
    have hp0 : 0 < runningPeak (e0 :: rest) i := by
      have := hbounds.1
      rw [runningPeak]
      calc (0 : ℚ) < e0.total_value := hseed
        _ = (equityValues (e0 :: rest)).headD 0 := hheadD.symm
        _ ≤ _ := hbounds.1
    have hvi_mem : (equityValues (e0 :: rest)).getD i 0 ∈
        (equityValues (e0 :: rest)).take (i + 1) := by
      have h1 : i < ((equityValues (e0 :: rest)).take (i + 1)).length := by
        simp [List.length_take]; omega
      have h2 : ((equityValues (e0 :: rest)).take (i + 1)).get ⟨i, h1⟩ =
          (equityValues (e0 :: rest)).getD i 0 := by
        rw [List.getD_eq_getElem _ _ hlen]
        simp [List.getElem_take]
      rw [← h2]
      exact List.get_mem _ _ _
    have hvp : (equityValues (e0 :: rest)).getD i 0 ≤ runningPeak (e0 :: rest) i :=
      hbounds.2 _ hvi_mem
    rw [hmain, if_pos hp0]
    constructor
    · have h1 : (equityValues (e0 :: rest)).getD i 0 - runningPeak (e0 :: rest) i ≤ 0 :=
        sub_nonpos.mpr hvp
      have h2 : ((equityValues (e0 :: rest)).getD i 0 - runningPeak (e0 :: rest) i) /
          runningPeak (e0 :: rest) i ≤ 0 :=
        div_nonpos_iff.mpr (Or.inr ⟨h1, hp0.le⟩)
      have h3 := mul_le_mul_of_nonneg_right h2 (by norm_num : (0 : ℚ) ≤ 100)
      simpa using h3
    · constructor
      · intro h
        rcases mul_eq_zero.mp h with h4 | h4
        · rcases div_eq_zero_iff.mp h4 with h5 | h5
          · exact sub_eq_zero.mp h5
          · exact absurd h5 hp0.ne'
        · norm_num at h4
      · intro h
        rw [h]
        simp

/-- C2 counterexample: on the all-negative equity curve `[-10, -20]` the
running peak at index `1` is `-10`, the claimed formula gives
`((-20 - (-10)) / (-10)) * 100 = 100`, but the code's non-positive-peak guard
yields `0`. -/
theorem drawdown_counterexample :
    (drawdownData [⟨0, -10, 0⟩, ⟨1, -20, 0⟩]).getD 1 0 ≠
      (((equityValues [⟨0, -10, 0⟩, ⟨1, -20, 0⟩]).getD 1 0 -
          runningPeak [⟨0, -10, 0⟩, ⟨1, -20, 0⟩] 1) /
        runningPeak [⟨0, -10, 0⟩, ⟨1, -20, 0⟩] 1) * 100 := by
  have hp : runningPeak [⟨0, -10, 0⟩, ⟨1, -20, 0⟩] 1 = -10 := by
    norm_num [runningPeak, equityValues, max_def]
  have h1 : (drawdownData [⟨0, -10, 0⟩, ⟨1, -20, 0⟩]).getD 1 0 = 0 := by
    norm_num [drawdownData, drawdownAux, equityValues]
  rw [h1, hp]
  norm_num [equityValues]

/-- C2 witness: the curve `[100, 120, 90]` at index `2` has running peak `120`
and drawdown `((90 - 120) / 120) * 100 = -25 ≤ 0`, nonzero since `90` is not
the running maximum. -/
theorem drawdown_formula_witness :
    (drawdownData [⟨0, 100, 0⟩, ⟨1, 120, 0⟩, ⟨2, 90, 0⟩]).getD 2 0 =
      (if 0 < runningPeak [⟨0, 100, 0⟩, ⟨1, 120, 0⟩, ⟨2, 90, 0⟩] 2 then
        (((equityValues [⟨0, 100, 0⟩, ⟨1, 120, 0⟩, ⟨2, 90, 0⟩]).getD 2 0 -
            runningPeak [⟨0, 100, 0⟩, ⟨1, 120, 0⟩, ⟨2, 90, 0⟩] 2) /
          runningPeak [⟨0, 100, 0⟩, ⟨1, 120, 0⟩, ⟨2, 90, 0⟩] 2) * 100
      else 0) ∧
    (drawdownData [⟨0, 100, 0⟩, ⟨1, 120, 0⟩, ⟨2, 90, 0⟩]).getD 2 0 ≤ 0 := by
  have h := drawdown_formula [⟨0, 100, 0⟩, ⟨1, 120, 0⟩, ⟨2, 90, 0⟩] 2
    (by simp) (by simp)
  exact ⟨h.1, (h.2 (by norm_num [equityValues])).1⟩

/-! ## C3 — cumulative return -/

/-- C3 (amended): in `ReturnsCharts.cumulativeData` each plotted NAV equals the
point's `total_value` divided by the FIRST equity point's `total_value`; in
the legacy dashboard the cumulative-return percentage at index `i` equals
`(v_i / init - 1) * 100` where `init` is the analysis-supplied initial capital
(falling back to the reported final value and then to `1`), which coincides
with `(v_i / v_0 - 1) * 100` exactly when that initial capital equals the
first equity point's `total_value`. -/
theorem cumulative_return_formula (ec : List EquityPoint) (bench : ℕ → Option ℚ)
    (ic fv : Option ℚ) (i : ℕ) (hi : i < ec.length) :
    ((cumulativeData ec bench).getD i default).nav =
      (ec.getD i default).total_value / (ec.headD default).total_value ∧
    ((cumReturnSeries ec (appInitial ic fv)).getD i default).y =
      ((ec.getD i default).total_value / appInitial ic fv - 1) * 100 ∧
    (appInitial ic fv = (ec.headD default).total_value →
      ((cumReturnSeries ec (appInitial ic fv)).getD i default).y =
        ((ec.getD i default).total_value / (ec.headD default).total_value - 1) * 100) := by
  refine ⟨?_, ?_, ?_⟩
  · cases ec with
    | nil => simp at hi
    | cons e0 rest =>
      simp only [cumulativeData]
      rw [getD_map_of_lt _ _ i default default hi]
      simp
  · rw [cumReturnSeries, getD_map_of_lt _ _ i default default hi]
  · intro h
    rw [cumReturnSeries, getD_map_of_lt _ _ i default default hi, h]

/-- C3 counterexample: with equity curve `[100, 110]` and an analysis summary
reporting `initial_capital = 50`, the legacy dashboard's cumulative-return
percentage at the last point is `(110 / 50 - 1) * 100 = 120`, not
`(110 / 100 - 1) * 100 = 10`. -/
theorem cumulative_return_counterexample :
    ((cumReturnSeries [⟨0, 100, 0⟩, ⟨1, 110, 0⟩]
        (appInitial (some 50) (some 100))).getD 1 default).y ≠
      ((([⟨0, 100, 0⟩, ⟨1, 110, 0⟩] : List EquityPoint).getD 1 default).total_value /
        (([⟨0, 100, 0⟩, ⟨1, 110, 0⟩] : List EquityPoint).headD default).total_value - 1)
        * 100 := by
  norm_num [cumReturnSeries, appInitial, jsNumOr]

/-- C3 witness: on the curve `[100, 110]` with the analysis reporting initial
capital `100` (equal to the first equity value), the NAV at index 1 is
`110 / 100` and the cumulative-return percentage is `10`. -/
theorem cumulative_return_formula_witness :
    1 < ([⟨0, 100, 0⟩, ⟨1, 110, 0⟩] : List EquityPoint).length ∧
    ((cumulativeData [⟨0, 100, 0⟩, ⟨1, 110, 0⟩] (fun _ => none)).getD 1 default).nav =
      ((([⟨0, 100, 0⟩, ⟨1, 110, 0⟩] : List EquityPoint).getD 1 default).total_value /
        (([⟨0, 100, 0⟩, ⟨1, 110, 0⟩] : List EquityPoint).headD default).total_value) ∧
    ((cumReturnSeries [⟨0, 100, 0⟩, ⟨1, 110, 0⟩]
        (appInitial (some 100) none)).getD 1 default).y =
      ((([⟨0, 100, 0⟩, ⟨1, 110, 0⟩] : List EquityPoint).getD 1 default).total_value /
        (([⟨0, 100, 0⟩, ⟨1, 110, 0⟩] : List EquityPoint).headD default).total_value - 1)
        * 100 := by
  have h := cumulative_return_formula [⟨0, 100, 0⟩, ⟨1, 110, 0⟩] (fun _ => none)
    (some 100) none 1 (by simp)
  exact ⟨by simp, h.1, h.2.2 (by norm_num [appInitial, jsNumOr])⟩

/-! ## C9 — formatPercent totality -/

theorem formatPercent_num_getLast (q : ℚ) (d : ℕ) :
    (formatPercent (JSNum.num q) d).data.getLast? = some '%' := by
  show (((if 0 ≤ q then "+" else "").data ++
      (toFixedQ q d).data ++ "%".data)).getLast? = some '%'
  rw [List.append_assoc, List.getLast?_append, List.getLast?_append]
  rfl

/-- C9: `formatPercent` is total on `number | null | undefined`: it returns
the sentinel `"--"` exactly when the input is `null`, `undefined` or `NaN`;
for every other number it returns the value rendered to the requested decimals
followed by `'%'`, prefixed with `'+'` exactly when the value is `≥ 0` (a
negative value starts with `'-'` instead). -/
theorem formatPercent_total (v : JSNum) (d : ℕ) (q : ℚ) :
    (formatPercent v d = "--" ↔ v = JSNum.null ∨ v = JSNum.undefined ∨ v = JSNum.nan) ∧
    (v = JSNum.num q →
      formatPercent v d =
        String.mk ((if 0 ≤ q then "+" else "").data ++ (toFixedQ q d).data ++ "%".data) ∧
      (formatPercent v d).data.getLast? = some '%' ∧
      (0 ≤ q → (formatPercent v d).data.head? = some '+') ∧
      (q < 0 → (formatPercent v d).data.head? = some '-')) := by
  constructor
  · cases v with
    | null => simp [formatPercent]
    | undefined => simp [formatPercent]
    | nan => simp [formatPercent]
    | num q' =>
      simp only [formatPercent, reduceCtorEq, or_self, iff_false]
      intro hcontra
      have h1 := formatPercent_num_getLast q' d
      simp only [formatPercent] at h1
      have h2 : ("--".data).getLast? = some '%' := by
        rw [← hcontra]
        exact h1
      exact absurd h2 (by decide)
  · intro hv
    subst hv
    refine ⟨rfl, formatPercent_num_getLast q d, ?_, ?_⟩
    · intro hq
      show (((if 0 ≤ q then "+" else "").data ++
        (toFixedQ q d).data ++ "%".data)).head? = some '+'
      rw [if_pos hq]
      rfl
    · intro hq
      show (((if 0 ≤ q then "+" else "").data ++
        (toFixedQ q d).data ++ "%".data)).head? = some '-'
      rw [if_neg (not_le.mpr hq), toFixedQ, if_pos hq]
      rfl

/-- C9 witness: `formatPercent` on the number `-5/2` is not the sentinel and
starts with `'-'`; on `3` it starts with `'+'`; on `null` it is `"--"`. -/
theorem formatPercent_total_witness :
    formatPercent (JSNum.num (-5 / 2)) 1 ≠ "--" ∧
    (formatPercent (JSNum.num (-5 / 2)) 1).data.head? = some '-' ∧
    (formatPercent (JSNum.num 3) 2).data.head? = some '+' ∧
    formatPercent JSNum.null 2 = "--" := by
  refine ⟨?_, ?_, ?_, ?_⟩
  · intro h
    rcases (formatPercent_total (JSNum.num (-5 / 2)) 1 (-5 / 2)).1.mp h with h1 | h1 | h1 <;>
      simp at h1
  · exact ((formatPercent_total (JSNum.num (-5 / 2)) 1 (-5 / 2)).2 rfl).2.2.2 (by norm_num)
  · exact ((formatPercent_total (JSNum.num 3) 2 3).2 rfl).2.2.1 (by norm_num)
  · exact (formatPercent_total JSNum.null 2 0).1.mpr (Or.inl rfl)

/-! ## C4 — rolling Sharpe ratio -/

theorem dailyReturns_length (l : List ℚ) : (dailyReturns l).length = l.length - 1 := by
  induction l with
  | nil => simp [dailyReturns]
  | cons a rest ih =>
    cases rest with
    | nil => simp [dailyReturns]
    | cons b r2 =>
      simp only [dailyReturns, List.length_cons] at ih ⊢
      omega

theorem sharpeOf_eq_spec (s : List ℚ) (h : s.length = 60) :
    sharpeOf (winMean s) (winVar s) = specRollingSharpe s := by
  simp only [specRollingSharpe, sharpeOf]
  rw [show (s.sum / (s.length : ℚ)) = winMean s by rw [h, winMean]; norm_num]
  rw [show ((s.map (fun x => (x - winMean s) ^ 2)).sum / ((s.length : ℚ) - 1)) = winVar s by
    rw [h, winVar]; norm_num]
  have hrf : ((dailyRf : ℚ) : ℝ) = (3 : ℝ) / 100 / 252 := by
    rw [dailyRf]; push_cast; ring
  by_cases h0 : Real.sqrt ((winVar s : ℚ) : ℝ) = 0
  · rw [if_pos h0, if_neg (by rw [h0]; exact lt_irrefl 0)]
  · have hpos : 0 < Real.sqrt ((winVar s : ℚ) : ℝ) :=
      lt_of_le_of_ne (Real.sqrt_nonneg _) (Ne.symm h0)
    rw [if_pos hpos, if_neg h0, hrf]

/-- C4: for every equity curve with at least 62 points, each rolling-Sharpe
value equals (mean daily return of the 60-return window minus the daily
risk-free rate 0.03/252) divided by the sample standard deviation (n-1
denominator) of that window, multiplied by √252, with a zero-deviation window
yielding 0. -/
theorem rolling_sharpe_formula (ec : List EquityPoint) (i : ℕ)
    (hlen : 62 ≤ ec.length) (hi : i < (sharpeData ec).length) :
    (sharpeData ec).getD i 0 =
      specRollingSharpe
        ((sharpeSlices (dailyReturns (ec.map EquityPoint.total_value))).getD i []) := by
  have hnot : ¬ ec.length < 62 := not_lt.mpr hlen
  rw [sharpeData, if_neg hnot] at hi ⊢
  rw [List.length_map] at hi
  rw [getD_map_of_lt _ _ i [] 0 hi]
  refine sharpeOf_eq_spec _ ?_
  have hslice : (sharpeSlices (dailyReturns (ec.map EquityPoint.total_value))).getD i [] =
      ((dailyReturns (ec.map EquityPoint.total_value)).drop i).take 60 := by
    rw [sharpeSlices]
    rw [sharpeSlices] at hi
    rw [List.length_map] at hi
    rw [getD_map_of_lt _ _ i 0 [] hi]
    congr 1
    rw [List.getD_eq_getElem _ _ hi, List.getElem_range]
  rw [hslice]
  rw [sharpeSlices, List.length_map, List.length_range] at hi
  have hrl : 60 ≤ (dailyReturns (ec.map EquityPoint.total_value)).length - i := by omega
  simp [List.length_take, List.length_drop]
  omega

/-- C4 witness: the constant 62-point equity curve has a one-element rolling
Sharpe series whose value (a zero-variance window) matches the specification
formula. -/
theorem rolling_sharpe_formula_witness :
    62 ≤ (List.replicate 62 (⟨0, 100, 0⟩ : EquityPoint)).length ∧
    0 < (sharpeData (List.replicate 62 ⟨0, 100, 0⟩)).length ∧
    (sharpeData (List.replicate 62 ⟨0, 100, 0⟩)).getD 0 0 =
      specRollingSharpe
        ((sharpeSlices (dailyReturns
          ((List.replicate 62 (⟨0, 100, 0⟩ : EquityPoint)).map
            EquityPoint.total_value))).getD 0 []) := by
  have hlen : 62 ≤ (List.replicate 62 (⟨0, 100, 0⟩ : EquityPoint)).length := by simp
  have hi : 0 < (sharpeData (List.replicate 62 ⟨0, 100, 0⟩)).length := by
    rw [sharpeData, if_neg (by simp)]
    simp [sharpeSlices, dailyReturns_length]
  exact ⟨hlen, hi, rolling_sharpe_formula _ 0 hlen hi⟩

/-! ## C1 — cash non-negativity and frozen-cash discipline -/
theorem frozenOf_cons (o : PendingOrder) (l : List PendingOrder) :
    frozenOf (o :: l) = o.reserved + frozenOf l := by simp [frozenOf]

theorem frozenOf_append (l1 l2 : List PendingOrder) :
    frozenOf (l1 ++ l2) = frozenOf l1 + frozenOf l2 := by simp [frozenOf]

theorem frozenOf_nonneg (l : List PendingOrder) (h : ∀ o ∈ l, 0 ≤ o.reserved) :
    0 ≤ frozenOf l := by
  apply List.sum_nonneg
  intro x hx
  rcases List.mem_map.mp hx with ⟨o, ho, rfl⟩
  exact h o ho

theorem settleOrders_inv (cfg : EngineCfg) (hist : PriceHist) (d : ℕ)
    (orders : List PendingOrder) :
    ∀ (cash : ℚ) (pos : ℕ) (kept : List PendingOrder) (log : List Outcome),
      0 ≤ cash →
      frozenOf kept + frozenOf orders ≤ cash →
      (∀ o ∈ kept, 0 ≤ o.reserved) →
      (∀ o ∈ orders, 0 ≤ o.reserved) →
      0 ≤ (settleOrders cfg hist d cash pos kept log orders).1 ∧
      frozenOf (settleOrders cfg hist d cash pos kept log orders).2.2.1 ≤
        (settleOrders cfg hist d cash pos kept log orders).1 ∧
      (∀ o ∈ (settleOrders cfg hist d cash pos kept log orders).2.2.1, 0 ≤ o.reserved) := by
  induction orders with
  | nil =>
    intro cash pos kept log hc hf hk _
    rw [settleOrders]
    refine ⟨hc, ?_, hk⟩
    simpa [frozenOf] using hf
  | cons o rest ih =>
    intro cash pos kept log hc hf hk hor
    have hor_rest : ∀ o' ∈ rest, 0 ≤ o'.reserved :=
      fun o' h' => hor o' (List.mem_cons_of_mem _ h')
    have ho : 0 ≤ o.reserved := hor o (List.mem_cons_self _ _)
    have hfr : frozenOf kept + (o.reserved + frozenOf rest) ≤ cash := by
      rw [← frozenOf_cons]; exact hf
    have hkr : 0 ≤ frozenOf kept := frozenOf_nonneg kept hk
    have hrr : 0 ≤ frozenOf rest := frozenOf_nonneg rest hor_rest
    rw [settleOrders]
    split_ifs with hvol hatt hlim hcost
    · -- suspended, deferred
      apply ih
      · exact hc
      · have h1 : frozenOf [{ o with attempts := o.attempts + 1 }] = o.reserved := by
          simp [frozenOf]
        rw [frozenOf_append, h1]
        linarith
      · intro o' ho'
        rcases List.mem_append.mp ho' with h' | h'
        · exact hk o' h'
        · rcases List.mem_singleton.mp h' with rfl
          exact ho
      · exact hor_rest
    · -- suspended, attempts exhausted: dropped
      exact ih cash pos kept _ hc (by linarith) hk hor_rest
    · -- price-limit rejection
      exact ih cash pos kept _ hc (by linarith) hk hor_rest
    · -- fill
      apply ih
      · linarith
      · linarith
      · exact hk
      · exact hor_rest
    · -- not affordable: rejected
      exact ih cash pos kept _ hc (by linarith) hk hor_rest


theorem sizeShares_spec (cfg : EngineCfg) (target price : ℚ) (htarget : 0 ≤ target)
    (h : sizeShares cfg target price ≠ 0) :
    0 < price ∧ (sizeShares cfg target price : ℚ) * price ≤ target := by
  have hprice : 0 < price := by
    by_contra hp
    push_neg at hp
    apply h
    rw [sizeShares]
    have hdiv : target / price ≤ 0 := div_nonpos_iff.mpr (Or.inl ⟨htarget, hp⟩)
    have hfl : ⌊target / price⌋ ≤ 0 := Int.floor_nonpos hdiv
    have h0 : ⌊target / price⌋.toNat = 0 := by omega
    rw [h0]
    simp
  refine ⟨hprice, ?_⟩
  have h2 : 0 ≤ ⌊target / price⌋ := Int.floor_nonneg.mpr (div_nonneg htarget hprice.le)
  have h3 : ((⌊target / price⌋.toNat : ℚ)) ≤ target / price := by
    have h4 := Int.floor_le (target / price)
    have h5 : ((⌊target / price⌋.toNat : ℤ) : ℚ) = ((⌊target / price⌋ : ℤ) : ℚ) := by
      rw [Int.toNat_of_nonneg h2]
    push_cast at h5
    rw [h5]
    exact h4
  have h1 : ((⌊target / price⌋.toNat / cfg.lotSize * cfg.lotSize : ℕ) : ℚ) ≤
      ((⌊target / price⌋.toNat : ℕ) : ℚ) := by
    exact_mod_cast Nat.cast_le.mpr (Nat.div_mul_le_self _ _)
  calc ((sizeShares cfg target price : ℕ) : ℚ) * price
      ≤ (⌊target / price⌋.toNat : ℚ) * price := by
        rw [sizeShares]
        exact mul_le_mul_of_nonneg_right h1 hprice.le
    _ ≤ (target / price) * price := mul_le_mul_of_nonneg_right h3 hprice.le
    _ = target := div_mul_cancel₀ _ hprice.ne'

theorem processSignal_inv (cfg : EngineCfg) (hist : PriceHist) (d : ℕ) (L : Ledger)
    (code : ℕ) (h : LedgerInv L) : LedgerInv (processSignal cfg hist d L code) := by
  obtain ⟨hc, hf, hk⟩ := h
  rw [processSignal]
  split_ifs with hcond hsh
  · exact ⟨hc, hf, hk⟩
  · have havail : (0 : ℚ) ≤ availableCash L := le_trans (by norm_num) hcond.2
    have hslots : 1 ≤ cfg.maxPositions - (L.openPositions + L.pendingBuys.length) := by
      omega
    have hslotsq : (1 : ℚ) ≤
        ((cfg.maxPositions - (L.openPositions + L.pendingBuys.length) : ℕ) : ℚ) := by
      exact_mod_cast hslots
    have htarget : (0 : ℚ) ≤ availableCash L /
        ((cfg.maxPositions - (L.openPositions + L.pendingBuys.length) : ℕ) : ℚ) :=
      div_nonneg havail (by linarith)
    obtain ⟨hpr, hle⟩ := sizeShares_spec cfg _ _ htarget hsh
    have htargle : availableCash L /
        ((cfg.maxPositions - (L.openPositions + L.pendingBuys.length) : ℕ) : ℚ) ≤
        availableCash L := div_le_self havail hslotsq
    refine ⟨hc, ?_, ?_⟩
    · show frozenOf (L.pendingBuys ++ [_]) ≤ L.cash
      rw [frozenOf_append]
      have h1 : frozenOf [(⟨code, sizeShares cfg (availableCash L /
          ((cfg.maxPositions - (L.openPositions + L.pendingBuys.length) : ℕ) : ℚ))
          (hist code d).closePx,
          (sizeShares cfg (availableCash L /
            ((cfg.maxPositions - (L.openPositions + L.pendingBuys.length) : ℕ) : ℚ))
            (hist code d).closePx : ℚ) * (hist code d).closePx, d, 0⟩ : PendingOrder)] =
          (sizeShares cfg (availableCash L /
            ((cfg.maxPositions - (L.openPositions + L.pendingBuys.length) : ℕ) : ℚ))
            (hist code d).closePx : ℚ) * (hist code d).closePx := by
        simp [frozenOf]
      rw [h1]
      have : frozenCash L = frozenOf L.pendingBuys := rfl
      rw [availableCash] at htargle hle ⊢
      linarith [le_trans hle htargle]
    · intro o ho
      rcases List.mem_append.mp ho with h1 | h1
      · exact hk o h1
      · rcases List.mem_singleton.mp h1 with rfl
        exact mul_nonneg (Nat.cast_nonneg _) hpr.le
  · exact ⟨hc, hf, hk⟩


theorem foldl_preserve {A B : Type} (P : A → Prop) (step : A → B → A)
    (h : ∀ s b, P s → P (step s b)) :
    ∀ (l : List B) (s : A), P s → P (l.foldl step s) := by
  intro l
  induction l with
  | nil => intro s hs; exact hs
  | cons b rest ih => intro s hs; exact ih _ (h s b hs)

theorem settlePhase_inv (cfg : EngineCfg) (hist : PriceHist) (d : ℕ) (L : Ledger)
    (h : LedgerInv L) : LedgerInv (settlePhase cfg hist d L).1 := by
  obtain ⟨hc, hf, hk⟩ := h
  have hs := settleOrders_inv cfg hist d L.pendingBuys L.cash L.openPositions [] []
    hc (by simpa [frozenOf] using hf) (by simp) hk
  exact ⟨hs.1, hs.2.1, hs.2.2⟩

theorem dayStep_inv (cfg : EngineCfg) (hist : PriceHist) (signals : ℕ → List ℕ)
    (st : Ledger × List Outcome) (d : ℕ) (h : LedgerInv st.1) :
    LedgerInv (dayStep cfg hist signals st d).1 := by
  rw [dayStep]
  exact foldl_preserve LedgerInv (processSignal cfg hist d)
    (fun s b hb => processSignal_inv cfg hist d s b hb) _ _
    (settlePhase_inv cfg hist d st.1 h)

theorem runEngine_inv (cfg : EngineCfg) (hist : PriceHist) (signals : ℕ → List ℕ)
    (cash0 : ℚ) (h0 : 0 ≤ cash0) (n : ℕ) :
    LedgerInv (runEngine cfg hist signals cash0 n).1 := by
  induction n with
  | zero =>
    refine ⟨h0, ?_, ?_⟩
    · show frozenOf [] ≤ cash0
      simp [frozenOf]
      exact h0
    · show ∀ o ∈ ([] : List PendingOrder), 0 ≤ o.reserved
      simp
  | succ n ih =>
    rw [runEngine, List.range_succ, List.foldl_append, List.foldl_cons, List.foldl_nil]
    exact dayStep_inv cfg hist signals _ n ih


/-- C1: at every simulated day boundary and after every settlement phase, the
ledger's cash is non-negative and the frozen cash reserved for pending buy
orders never exceeds cash — equivalently, the available cash used to size new
orders (cash minus frozen cash) stays non-negative — for every engine
configuration, every input price history, every sequence of buy signals and
every non-negative initial capital. -/
theorem engine_cash_invariant (cfg : EngineCfg) (hist : PriceHist)
    (signals : ℕ → List ℕ) (cash0 : ℚ) (h0 : 0 ≤ cash0) (n : ℕ) :
    (0 ≤ (runEngine cfg hist signals cash0 n).1.cash ∧
      frozenCash (runEngine cfg hist signals cash0 n).1 ≤
        (runEngine cfg hist signals cash0 n).1.cash ∧
      0 ≤ availableCash (runEngine cfg hist signals cash0 n).1) ∧
    (0 ≤ (settlePhase cfg hist n (runEngine cfg hist signals cash0 n).1).1.cash ∧
      frozenCash (settlePhase cfg hist n (runEngine cfg hist signals cash0 n).1).1 ≤
        (settlePhase cfg hist n (runEngine cfg hist signals cash0 n).1).1.cash ∧
      0 ≤ availableCash (settlePhase cfg hist n (runEngine cfg hist signals cash0 n).1).1) := by
  have h1 := runEngine_inv cfg hist signals cash0 h0 n
  have h2 := settlePhase_inv cfg hist n _ h1
  exact ⟨⟨h1.1, h1.2.1, by rw [availableCash]; linarith [h1.2.1]⟩,
    ⟨h2.1, h2.2.1, by rw [availableCash]; linarith [h2.2.1]⟩⟩

/-! ## Concrete engine run shared by the C1 witness and the C7 theorems:
price 10 throughout, stock 1 signalled on day 0, suspended (volume 0) on
day 1, trading again on day 2 with opening price 11. -/

def cfgW : EngineCfg := ⟨5, 100, 0, 1/10, 3⟩

def histW : PriceHist := fun _ d =>
  if d = 1 then ⟨10, 10, 0⟩ else if d = 2 then ⟨11, 12, 1⟩ else ⟨10, 10, 1⟩

def sigW : ℕ → List ℕ := fun d => if d = 0 then [1] else []

theorem processSignalW_eval : processSignal cfgW histW 0 ⟨1000000, 0, []⟩ 1 =
    ⟨1000000, 0, [⟨1, 20000, 200000, 0, 0⟩]⟩ := by
  rw [processSignal]
  norm_num [cfgW, histW, availableCash, frozenCash, frozenOf, sizeShares]
  simp
  norm_num


theorem settleW_day1 : settlePhase cfgW histW 1 ⟨1000000, 0, [⟨1, 20000, 200000, 0, 0⟩]⟩ =
    (⟨1000000, 0, [⟨1, 20000, 200000, 0, 1⟩]⟩, []) := by
  rw [settlePhase, settleOrders]
  norm_num [histW, cfgW, settleOrders]

theorem settleW_day2 : settlePhase cfgW histW 2 ⟨1000000, 0, [⟨1, 20000, 200000, 0, 1⟩]⟩ =
    (⟨780000, 1, []⟩, [⟨1, 0, 2, OutcomeKind.filled, 11⟩]) := by
  rw [settlePhase, settleOrders]
  norm_num [histW, cfgW, settleOrders, frozenOf]


theorem runW_eval : runEngine cfgW histW sigW 1000000 3 =
    (⟨780000, 1, []⟩, [⟨1, 0, 2, OutcomeKind.filled, 11⟩]) := by
  have h0 : dayStep cfgW histW sigW ((⟨1000000, 0, []⟩ : Ledger), ([] : List Outcome)) 0 =
      (⟨1000000, 0, [⟨1, 20000, 200000, 0, 0⟩]⟩, []) := by
    rw [dayStep]
    simp only [settlePhase, settleOrders, processSignals, sigW, if_pos rfl, if_true,
      List.foldl_cons, List.foldl_nil, List.append_nil]
    rw [processSignalW_eval]
  have h1 : dayStep cfgW histW sigW
      ((⟨1000000, 0, [⟨1, 20000, 200000, 0, 0⟩]⟩ : Ledger), ([] : List Outcome)) 1 =
      (⟨1000000, 0, [⟨1, 20000, 200000, 0, 1⟩]⟩, []) := by
    rw [dayStep, settleW_day1]
    simp [processSignals, sigW]
  have h2 : dayStep cfgW histW sigW
      ((⟨1000000, 0, [⟨1, 20000, 200000, 0, 1⟩]⟩ : Ledger), ([] : List Outcome)) 2 =
      (⟨780000, 1, []⟩, [⟨1, 0, 2, OutcomeKind.filled, 11⟩]) := by
    rw [dayStep, settleW_day2]
    simp [processSignals, sigW]
  rw [runEngine, show List.range 3 = [0, 1, 2] from rfl]
  simp only [List.foldl_cons, List.foldl_nil, initLedger]
  rw [h0, h1, h2]



/-- C1 witness: the concrete three-day run (one signal, a suspension deferral
and a fill) keeps cash non-negative and frozen cash within cash. -/
theorem engine_cash_invariant_witness :
    (0 : ℚ) ≤ 1000000 ∧
    0 ≤ (runEngine cfgW histW sigW 1000000 3).1.cash ∧
    frozenCash (runEngine cfgW histW sigW 1000000 3).1 ≤
      (runEngine cfgW histW sigW 1000000 3).1.cash ∧
    0 ≤ availableCash (runEngine cfgW histW sigW 1000000 3).1 := by
  have h := engine_cash_invariant cfgW histW sigW 1000000 (by norm_num) 3
  exact ⟨by norm_num, h.1.1, h.1.2.1, h.1.2.2⟩

/-! ## C7 — settlement delay -/
def LogOk (hist : PriceHist) (e : Outcome) : Prop :=
  e.created < e.day ∧ (e.kind = OutcomeKind.filled → e.execPrice = (hist e.code e.day).openPx)

theorem logOk_append (hist : PriceHist) (log : List Outcome) (e : Outcome)
    (h : ∀ x ∈ log, LogOk hist x) (he : LogOk hist e) : ∀ x ∈ log ++ [e], LogOk hist x := by
  intro x hx
  rcases List.mem_append.mp hx with h1 | h1
  · exact h x h1
  · rcases List.mem_singleton.mp h1 with rfl
    exact he

theorem settleOrders_log (cfg : EngineCfg) (hist : PriceHist) (d : ℕ)
    (orders : List PendingOrder) :
    ∀ (cash : ℚ) (pos : ℕ) (kept : List PendingOrder) (log : List Outcome),
      (∀ o ∈ orders, o.created < d) →
      (∀ o ∈ kept, o.created < d) →
      (∀ e ∈ log, LogOk hist e) →
      (∀ o ∈ (settleOrders cfg hist d cash pos kept log orders).2.2.1, o.created < d) ∧
      (∀ e ∈ (settleOrders cfg hist d cash pos kept log orders).2.2.2, LogOk hist e) := by
  induction orders with
  | nil =>
    intro cash pos kept log _ hkept hlog
    rw [settleOrders]
    exact ⟨hkept, hlog⟩
  | cons o rest ih =>
    intro cash pos kept log hor hkept hlog
    have hor_rest : ∀ o' ∈ rest, o'.created < d :=
      fun o' h' => hor o' (List.mem_cons_of_mem _ h')
    have hod : o.created < d := hor o (List.mem_cons_self _ _)
    rw [settleOrders]
    split_ifs with hvol hatt hlim hcost
    · apply ih _ _ _ _ hor_rest _ hlog
      intro o' ho'
      rcases List.mem_append.mp ho' with h' | h'
      · exact hkept o' h'
      · rcases List.mem_singleton.mp h' with rfl
        exact hod
    · exact ih _ _ _ _ hor_rest hkept
        (logOk_append hist log _ hlog ⟨hod, fun hk => by cases hk⟩)
    · exact ih _ _ _ _ hor_rest hkept
        (logOk_append hist log _ hlog ⟨hod, fun hk => by cases hk⟩)
    · exact ih _ _ _ _ hor_rest hkept
        (logOk_append hist log _ hlog ⟨hod, fun _ => rfl⟩)
    · exact ih _ _ _ _ hor_rest hkept
        (logOk_append hist log _ hlog ⟨hod, fun hk => by cases hk⟩)

theorem processSignal_pending (cfg : EngineCfg) (hist : PriceHist) (d : ℕ) (L : Ledger)
    (code : ℕ) : ∀ o ∈ (processSignal cfg hist d L code).pendingBuys,
      o ∈ L.pendingBuys ∨ o.created = d := by
  intro o ho
  rw [processSignal] at ho
  split_ifs at ho with h1 h2
  · exact Or.inl ho
  · rcases List.mem_append.mp ho with h' | h'
    · exact Or.inl h'
    · rcases List.mem_singleton.mp h' with rfl
      exact Or.inr rfl
  · exact Or.inl ho

theorem processSignals_pending (cfg : EngineCfg) (hist : PriceHist) (d : ℕ)
    (codes : List ℕ) : ∀ (L : Ledger) (o : PendingOrder),
      o ∈ (processSignals cfg hist d L codes).pendingBuys →
      o ∈ L.pendingBuys ∨ o.created = d := by
  induction codes with
  | nil => intro L o ho; exact Or.inl ho
  | cons c cs ih =>
    intro L o ho
    rcases ih (processSignal cfg hist d L c) o ho with h1 | h1
    · exact processSignal_pending cfg hist d L c o h1
    · exact Or.inr h1

theorem runEngine_log (cfg : EngineCfg) (hist : PriceHist) (signals : ℕ → List ℕ)
    (cash0 : ℚ) (n : ℕ) :
    (∀ o ∈ (runEngine cfg hist signals cash0 n).1.pendingBuys, o.created < n) ∧
    (∀ e ∈ (runEngine cfg hist signals cash0 n).2, LogOk hist e) := by
  induction n with
  | zero => constructor <;> simp [runEngine, initLedger]
  | succ n ih =>
    rw [runEngine, List.range_succ, List.foldl_append, List.foldl_cons, List.foldl_nil,
      ← runEngine, dayStep]
    have hs := settleOrders_log cfg hist n (runEngine cfg hist signals cash0 n).1.pendingBuys
      (runEngine cfg hist signals cash0 n).1.cash
      (runEngine cfg hist signals cash0 n).1.openPositions [] [] ih.1 (by simp) (by simp)
    constructor
    · intro o ho
      rcases processSignals_pending cfg hist n (signals n) _ o ho with h1 | h1
      · exact Nat.lt_succ_of_lt (hs.1 o h1)
      · omega
    · intro e he
      rcases List.mem_append.mp he with h1 | h1
      · exact ih.2 e h1
      · exact hs.2 e h1

theorem settleOrders_nosusp (cfg : EngineCfg) (hist : PriceHist) (d : ℕ)
    (hns : ∀ c dd, (hist c dd).volume ≠ 0) (orders : List PendingOrder) :
    ∀ (cash : ℚ) (pos : ℕ) (log : List Outcome),
      (settleOrders cfg hist d cash pos [] log orders).2.2.1 = [] ∧
      (∀ e ∈ (settleOrders cfg hist d cash pos [] log orders).2.2.2,
        e ∈ log ∨ (e.day = d ∧ ∃ o ∈ orders, e.created = o.created)) := by
  induction orders with
  | nil =>
    intro cash pos log
    rw [settleOrders]
    exact ⟨rfl, fun e he => Or.inl he⟩
  | cons o rest ih =>
    intro cash pos log
    rw [settleOrders]
    split_ifs with hvol hatt hlim hcost
    · exact absurd hvol (hns _ _)
    · exact absurd hvol (hns _ _)
    · refine ⟨(ih _ _ _).1, fun e he => ?_⟩
      rcases (ih _ _ _).2 e he with h1 | h1
      · rcases List.mem_append.mp h1 with h' | h'
        · exact Or.inl h'
        · rcases List.mem_singleton.mp h' with rfl
          exact Or.inr ⟨rfl, o, List.mem_cons_self _ _, rfl⟩
      · obtain ⟨hday, o', ho', hcr⟩ := h1
        exact Or.inr ⟨hday, o', List.mem_cons_of_mem _ ho', hcr⟩
    · refine ⟨(ih _ _ _).1, fun e he => ?_⟩
      rcases (ih _ _ _).2 e he with h1 | h1
      · rcases List.mem_append.mp h1 with h' | h'
        · exact Or.inl h'
        · rcases List.mem_singleton.mp h' with rfl
          exact Or.inr ⟨rfl, o, List.mem_cons_self _ _, rfl⟩
      · obtain ⟨hday, o', ho', hcr⟩ := h1
        exact Or.inr ⟨hday, o', List.mem_cons_of_mem _ ho', hcr⟩
    · refine ⟨(ih _ _ _).1, fun e he => ?_⟩
      rcases (ih _ _ _).2 e he with h1 | h1
      · rcases List.mem_append.mp h1 with h' | h'
        · exact Or.inl h'
        · rcases List.mem_singleton.mp h' with rfl
          exact Or.inr ⟨rfl, o, List.mem_cons_self _ _, rfl⟩
      · obtain ⟨hday, o', ho', hcr⟩ := h1
        exact Or.inr ⟨hday, o', List.mem_cons_of_mem _ ho', hcr⟩

theorem runEngine_tplus1 (cfg : EngineCfg) (hist : PriceHist) (signals : ℕ → List ℕ)
    (cash0 : ℚ) (hns : ∀ c dd, (hist c dd).volume ≠ 0) (n : ℕ) :
    (∀ o ∈ (runEngine cfg hist signals cash0 n).1.pendingBuys, o.created + 1 = n) ∧
    (∀ e ∈ (runEngine cfg hist signals cash0 n).2, e.day = e.created + 1) := by
  induction n with
  | zero => constructor <;> simp [runEngine, initLedger]
  | succ n ih =>
    rw [runEngine, List.range_succ, List.foldl_append, List.foldl_cons, List.foldl_nil,
      ← runEngine, dayStep]
    have hs := settleOrders_nosusp cfg hist n hns
      (runEngine cfg hist signals cash0 n).1.pendingBuys
      (runEngine cfg hist signals cash0 n).1.cash
      (runEngine cfg hist signals cash0 n).1.openPositions []
    constructor
    · intro o ho
      rcases processSignals_pending cfg hist n (signals n) _ o ho with h1 | h1
      · rw [show ((settlePhase cfg hist n (runEngine cfg hist signals cash0 n).1).1).pendingBuys =
            (settleOrders cfg hist n (runEngine cfg hist signals cash0 n).1.cash
              (runEngine cfg hist signals cash0 n).1.openPositions [] []
              (runEngine cfg hist signals cash0 n).1.pendingBuys).2.2.1 from rfl, hs.1] at h1
        cases h1
      · omega
    · intro e he
      rcases List.mem_append.mp he with h1 | h1
      · exact ih.2 e h1
      · rcases hs.2 e h1 with h2 | h2
        · cases h2
        · obtain ⟨hday, o', ho', hcr⟩ := h2
          rw [hday, hcr, ih.1 o' ho']

/-- C7 (amended): every fill or rejection of an order created on date T is
dated strictly after T (no order is created and executed on the same date),
and every fill uses the opening price of its execution date — which is T+1
whenever no suspension deferral occurs (in particular whenever no day has zero
volume). -/
theorem settlement_delay (cfg : EngineCfg) (hist : PriceHist) (signals : ℕ → List ℕ)
    (cash0 : ℚ) (n : ℕ) (e : Outcome)
    (he : e ∈ (runEngine cfg hist signals cash0 n).2) :
    e.created < e.day ∧
    (e.kind = OutcomeKind.filled → e.execPrice = (hist e.code e.day).openPx) ∧
    ((∀ c dd, (hist c dd).volume ≠ 0) → e.day = e.created + 1) := by
  have h1 := (runEngine_log cfg hist signals cash0 n).2 e he
  exact ⟨h1.1, h1.2, fun hns =>
    (runEngine_tplus1 cfg hist signals cash0 hns n).2 e he⟩

/-- C7 counterexample: an order created on day 0 whose settlement day (day 1)
is a suspension (zero volume) is deferred and fills on day 2 using day 2's
opening price 11, not day 1's opening price 10 — so a fill does not always use
date T+1's opening price. -/
theorem settlement_delay_counterexample :
    ∃ e ∈ (runEngine cfgW histW sigW 1000000 3).2,
      e.kind = OutcomeKind.filled ∧
      e.execPrice ≠ (histW e.code (e.created + 1)).openPx := by
  refine ⟨⟨1, 0, 2, OutcomeKind.filled, 11⟩, ?_, rfl, ?_⟩
  · rw [runW_eval]
    exact List.mem_singleton.mpr rfl
  · show (11 : ℚ) ≠ (histW 1 (0 + 1)).openPx
    norm_num [histW]

/-- C7 witness: the day-2 fill of the deferred order is dated strictly after
its creation date 0 and uses its execution day's opening price. -/
theorem settlement_delay_witness :
    ((⟨1, 0, 2, OutcomeKind.filled, 11⟩ : Outcome) ∈
      (runEngine cfgW histW sigW 1000000 3).2) ∧
    (0 : ℕ) < 2 ∧ (11 : ℚ) = (histW 1 2).openPx := by
  have hmem : (⟨1, 0, 2, OutcomeKind.filled, 11⟩ : Outcome) ∈
      (runEngine cfgW histW sigW 1000000 3).2 := by
    rw [runW_eval]
    exact List.mem_singleton.mpr rfl
  have h := settlement_delay cfgW histW sigW 1000000 3 _ hmem
  exact ⟨hmem, h.1, h.2.1 rfl⟩
